import Mathlib

/-!
Verification of the client-IP resolution and unverified-claims extraction
module of rauthy (`src/common/src/utils.rs`), via a shallow embedding.

Rust strings are modelled as `List Char`, byte buffers as `List Nat`
(each element `< 256`).  External collaborators (std `IpAddr::from_str`,
the `cidr` crate's CIDR parser and the serde serializer/deserializer)
are taken as function parameters; the base64 codec and the lossy UTF-8
decoder are implemented concretely since the claims speak about them.
-/

namespace Rauthy

/-- Modelled from the spec: the `rauthy_error` crate's `ErrorResponse`
(not among the sources; only its constructor calls appear in
`utils.rs`).  An error carries a response type and a message. -/
inductive ErrorResponseType
  | BadRequest
  | Unauthorized
  | Internal
  | NotFound
deriving DecidableEq, Repr

/-- Modelled from the spec: `rauthy_error::ErrorResponse`, a typed
failure consisting of an `ErrorResponseType` and a message string. -/
structure ErrorResponse where
  typ : ErrorResponseType
  message : String
deriving DecidableEq, Repr

/-- The error built by `parse_peer_addr` when the transport supplied no
peer address (the spec's kind `MissingPeerAddress`). -/
def missingPeerAddressError : ErrorResponse :=
  ⟨.BadRequest, "No IP Addr in Connection Info - this should only happen in tests"⟩

/-- The error built by `parse_peer_addr` when the peer-address string
does not parse as an IP literal (the spec's kind `MalformedPeerAddress`).
`std::net::AddrParseError` displays as "invalid IP address syntax". -/
def malformedPeerAddressError : ErrorResponse :=
  ⟨.BadRequest, "Cannot parse peer IP address: invalid IP address syntax"⟩

/-- The error built by `check_trusted_proxy` when the peer is in no
trusted CIDR range (the spec's kind `UntrustedProxy`). -/
def untrustedProxyError : ErrorResponse :=
  ⟨.BadRequest, "Invalid IP Address"⟩

/-- The error built by `extract_token_claims_unverified` when the token
has fewer than two `.` separators (the spec's kind `MalformedToken`). -/
def malformedTokenError : ErrorResponse :=
  ⟨.Unauthorized, "Invalid or malformed JWT Token"⟩

/-- The error built by `extract_token_claims_unverified` when the body
segment is not valid base64 (the spec's kind `MalformedTokenBody`). -/
def malformedTokenBodyError : ErrorResponse :=
  ⟨.BadRequest, "Invalid JWT Token body"⟩

/-- The error built by `extract_token_claims_unverified` when the decoded
body does not deserialize (the spec's kind `MalformedTokenClaims`). -/
def malformedTokenClaimsError : ErrorResponse :=
  ⟨.BadRequest, "Invalid JWT Token claims"⟩

/-- `std::net::IpAddr`: a v4 address is a 32-bit value, a v6 address a
128-bit value, both represented as `Nat` with explicit bounds where a
theorem needs them. -/
inductive IpAddr
  | v4 (a : Nat)
  | v6 (a : Nat)
deriving DecidableEq, Repr

/-- `cidr::IpCidr`: a network address together with a prefix length
(`net/len`), per address family.  `cidr::IpCidr::from_str` only accepts
canonical ranges (host bits zero), captured by `IpCidr.WF` below. -/
inductive IpCidr
  | v4 (net : Nat) (len : Nat)
  | v6 (net : Nat) (len : Nat)
deriving DecidableEq, Repr

/-- Bit width of the address family of a CIDR range. -/
def IpCidr.width : IpCidr → Nat
  | .v4 _ _ => 32
  | .v6 _ _ => 128

/-- The network address of a CIDR range. -/
def IpCidr.net : IpCidr → Nat
  | .v4 n _ => n
  | .v6 n _ => n

/-- The prefix length of a CIDR range. -/
def IpCidr.len : IpCidr → Nat
  | .v4 _ l => l
  | .v6 _ l => l

/-- Well-formedness of a CIDR range as guaranteed by
`cidr::IpCidr::from_str`: the prefix length fits the family, the network
address fits the family, and the host bits are zero (canonical form). -/
def IpCidr.WF (c : IpCidr) : Prop :=
  c.len ≤ c.width ∧ c.net < 2 ^ c.width ∧ c.net % 2 ^ (c.width - c.len) = 0

instance (c : IpCidr) : Decidable c.WF := by
  unfold IpCidr.WF; infer_instance

/-- An `IpAddr` value fits its family's bit width. -/
def IpAddr.WF : IpAddr → Prop
  | .v4 a => a < 2 ^ 32
  | .v6 a => a < 2 ^ 128

instance (ip : IpAddr) : Decidable ip.WF := by
  cases ip <;> (unfold IpAddr.WF; infer_instance)

/-- `cidr::IpCidr::contains`: true iff the address has the range's
family and agrees with the network address on the first `len` bits
(comparison of the addresses shifted right by `width - len` bits). -/
def IpCidr.contains : IpCidr → IpAddr → Bool
  | .v4 net len, .v4 a => a / 2 ^ (32 - len) == net / 2 ^ (32 - len)
  | .v6 net len, .v6 a => a / 2 ^ (128 - len) == net / 2 ^ (128 - len)
  | _, _ => false

/-- Bit width of the address family of an IP address. -/
def IpAddr.width : IpAddr → Nat
  | .v4 _ => 32
  | .v6 _ => 128

/-- The numeric value of an IP address. -/
def IpAddr.val : IpAddr → Nat
  | .v4 a => a
  | .v6 a => a

/-- The first (lowest) address of a CIDR range, as a numeric value. -/
def IpCidr.firstAddress (c : IpCidr) : Nat := c.net

/-- The last (highest) address of a CIDR range, as a numeric value. -/
def IpCidr.lastAddress (c : IpCidr) : Nat := c.net + 2 ^ (c.width - c.len) - 1

/-- `check_trusted_proxy` from `utils.rs`: walk the trusted-proxy list,
return `Ok(())` on the first range containing the peer IP, and the
`untrustedProxyError` if no range contains it. -/
def check_trusted_proxy : List IpCidr → IpAddr → Except ErrorResponse Unit
  | [], _ => .error untrustedProxyError
  | cidr :: rest, peer_ip =>
    if cidr.contains peer_ip then .ok () else check_trusted_proxy rest peer_ip

/-- Modelled from the spec: the process-wide configuration singletons
`PEER_IP_HEADER_NAME`, `PROXY_MODE` and `TRUSTED_PROXIES` of
`constants.rs` (not among the sources), re-expressed as an explicit
configuration record as §9 of the spec prescribes. -/
structure Config where
  peerIpHeaderName : Option String
  proxyMode : Bool
  trustedProxies : List IpCidr

/-- The request data consumed by the resolver: the transport peer
address (`connection_info().peer_addr()`), the header map (lookup by
name; the inner `Option` is `none` when `HeaderValue::to_str` fails on a
non-ASCII value), and the transport's standard forwarded-address
resolution result (`connection_info().realip_remote_addr()`). -/
structure Request where
  peerAddr : Option String
  headers : String → Option (Option String)
  realipRemoteAddr : Option String

/-- `parse_peer_addr` from `utils.rs`, over an external IP-literal
parser `parseIp` standing for `std::net::IpAddr::from_str`. -/
def parse_peer_addr (parseIp : String → Option IpAddr) :
    Option String → Except ErrorResponse IpAddr
  | none => .error missingPeerAddressError
  | some peer =>
    match parseIp peer with
    | some ip => .ok ip
    | none => .error malformedPeerAddressError

/-- `ip_from_cust_header` from `utils.rs`: if a custom header name is
configured and the header is present with an ASCII value that parses as
an IP, return that IP; otherwise (absent, non-ASCII, or unparsable —
the latter merely logged) return `none`. -/
def ip_from_cust_header (cfg : Config) (parseIp : String → Option IpAddr)
    (headers : String → Option (Option String)) : Option IpAddr :=
  match cfg.peerIpHeaderName with
  | some header_name =>
    match headers header_name with
    | some (some value) => parseIp value
    | _ => none
  | none => none

/-- `real_ip_from_req` from `utils.rs`: parse the peer address
(propagating its failure, per the `?` operator); if the custom header
yields an IP, require the peer to be a trusted proxy and return the
header's IP; else if `PROXY_MODE`, require the peer to be a trusted
proxy and parse `realip_remote_addr`; else return the peer itself. -/
def real_ip_from_req (cfg : Config) (parseIp : String → Option IpAddr)
    (req : Request) : Except ErrorResponse IpAddr :=
  match parse_peer_addr parseIp req.peerAddr with
  | .error e => .error e
  | .ok peer_ip =>
    match ip_from_cust_header cfg parseIp req.headers with
    | some ip =>
      match check_trusted_proxy cfg.trustedProxies peer_ip with
      | .error e => .error e
      | .ok _ => .ok ip
    | none =>
      if cfg.proxyMode then
        match check_trusted_proxy cfg.trustedProxies peer_ip with
        | .error e => .error e
        | .ok _ => parse_peer_addr parseIp req.realipRemoteAddr
      else
        .ok peer_ip

/-- `real_ip_from_svc_req` from `utils.rs`: byte-for-byte the same body
as `real_ip_from_req`, duplicated over `ServiceRequest` in the source. -/
def real_ip_from_svc_req (cfg : Config) (parseIp : String → Option IpAddr)
    (req : Request) : Except ErrorResponse IpAddr :=
  match parse_peer_addr parseIp req.peerAddr with
  | .error e => .error e
  | .ok peer_ip =>
    match ip_from_cust_header cfg parseIp req.headers with
    | some ip =>
      match check_trusted_proxy cfg.trustedProxies peer_ip with
      | .error e => .error e
      | .ok _ => .ok ip
    | none =>
      if cfg.proxyMode then
        match check_trusted_proxy cfg.trustedProxies peer_ip with
        | .error e => .error e
        | .ok _ => parse_peer_addr parseIp req.realipRemoteAddr
      else
        .ok peer_ip

deriving instance DecidableEq for Except

/-- `str::split_once`: the parts before and after the first occurrence
of `sep`, or `none` when `sep` does not occur. -/
def splitOnce (sep : Char) : List Char → Option (List Char × List Char)
  | [] => none
  | c :: rest =>
    if c = sep then some ([], rest)
    else
      match splitOnce sep rest with
      | none => none
      | some (before, after) => some (c :: before, after)

/-- Helper for `rustLines`: accumulate the current line (reversed) while
scanning for `'\n'`; a line that ended in `"\r\n"` loses the `'\r'`, and
a final line is kept only when nonempty (per `str::lines`). -/
def rustLinesGo (cur : List Char) : List Char → List (List Char)
  | [] => if cur = [] then [] else [cur.reverse]
  | c :: rest =>
    if c = '\n' then
      (if cur.head? = some '\r' then cur.tail.reverse else cur.reverse) :: rustLinesGo [] rest
    else rustLinesGo (c :: cur) rest

/-- `str::lines`: split at `'\n'` (also consuming a preceding `'\r'`),
with no empty final line for a trailing newline. -/
def rustLines (s : List Char) : List (List Char) := rustLinesGo [] s

/-- `str::trim`: remove whitespace from both ends. -/
def rustTrim (s : List Char) : List Char :=
  ((s.dropWhile Char.isWhitespace).reverse.dropWhile Char.isWhitespace).reverse

/-- The accumulation loop of `build_trusted_proxies`: skip blank lines,
push each line that parses as a CIDR, drop (after logging) each line
that does not. -/
def buildTrustedProxiesLoop (parseCidr : List Char → Option IpCidr) :
    List (List Char) → List IpCidr → List IpCidr
  | [], proxies => proxies
  | line :: rest, proxies =>
    let trimmed := rustTrim line
    if trimmed = [] then buildTrustedProxiesLoop parseCidr rest proxies
    else
      match parseCidr trimmed with
      | some cidr => buildTrustedProxiesLoop parseCidr rest (proxies ++ [cidr])
      | none => buildTrustedProxiesLoop parseCidr rest proxies

/-- `build_trusted_proxies` from `utils.rs`, over an external CIDR
parser `parseCidr` standing for `cidr::IpCidr::from_str`.  The raw
multi-line configuration string (the `TRUSTED_PROXIES` environment
variable, whose absence is a fatal startup precondition in the source)
is taken as a parameter. -/
def build_trusted_proxies (parseCidr : List Char → Option IpCidr)
    (raw : List Char) : List IpCidr :=
  buildTrustedProxiesLoop parseCidr (rustLines raw) []

/-- The URL-safe base64 alphabet (`A–Z`, `a–z`, `0–9`, `-`, `_`),
mapping a 6-bit value to its character. -/
def b64Char (n : Nat) : Char :=
  if n < 26 then Char.ofNat (65 + n)
  else if n < 52 then Char.ofNat (97 + (n - 26))
  else if n < 62 then Char.ofNat (48 + (n - 52))
  else if n = 62 then '-'
  else '_'

/-- Inverse of the URL-safe base64 alphabet: the 6-bit value of a
character, or `none` for a character outside the alphabet. -/
def b64Val (c : Char) : Option Nat :=
  if 'A' ≤ c ∧ c ≤ 'Z' then some (c.toNat - 65)
  else if 'a' ≤ c ∧ c ≤ 'z' then some (c.toNat - 97 + 26)
  else if '0' ≤ c ∧ c ≤ '9' then some (c.toNat - 48 + 52)
  else if c = '-' then some 62
  else if c = '_' then some 63
  else none

/-- `base64`'s `URL_SAFE_NO_PAD` encoder: three bytes become four
characters; a final group of one or two bytes becomes two or three
characters, with the unused low bits zero. -/
def b64UrlNoPadEncode : List Nat → List Char
  | [] => []
  | [a] => [b64Char (a / 4), b64Char (a % 4 * 16)]
  | [a, b] => [b64Char (a / 4), b64Char (a % 4 * 16 + b / 16), b64Char (b % 16 * 4)]
  | a :: b :: c :: rest =>
    b64Char (a / 4) :: b64Char (a % 4 * 16 + b / 16) :: b64Char (b % 16 * 4 + c / 64)
      :: b64Char (c % 64) :: b64UrlNoPadEncode rest

/-- `base64`'s `URL_SAFE_NO_PAD` decoder (canonical: padding forbidden,
a length of 1 mod 4 forbidden, nonzero trailing bits forbidden). -/
def b64UrlNoPadDecode : List Char → Option (List Nat)
  | [] => some []
  | [_] => none
  | [c1, c2] => do
    let v1 ← b64Val c1
    let v2 ← b64Val c2
    if v2 % 16 = 0 then some [v1 * 4 + v2 / 16] else none
  | [c1, c2, c3] => do
    let v1 ← b64Val c1
    let v2 ← b64Val c2
    let v3 ← b64Val c3
    if v3 % 4 = 0 then some [v1 * 4 + v2 / 16, v2 % 16 * 16 + v3 / 4] else none
  | c1 :: c2 :: c3 :: c4 :: rest => do
    let v1 ← b64Val c1
    let v2 ← b64Val c2
    let v3 ← b64Val c3
    let v4 ← b64Val c4
    let tail ← b64UrlNoPadDecode rest
    some ((v1 * 4 + v2 / 16) :: (v2 % 16 * 16 + v3 / 4) :: (v3 % 4 * 64 + v4) :: tail)

/-- The Unicode replacement character U+FFFD. -/
def replChar : Char := Char.ofNat 0xFFFD

/-- A UTF-8 continuation byte (0x80–0xBF). -/
def isCont (b : Nat) : Bool := decide (0x80 ≤ b ∧ b ≤ 0xBF)

/-- Allowed second byte after a three-byte lead: lead 0xE0 needs
0xA0–0xBF (no overlong forms), lead 0xED needs 0x80–0x9F (no
surrogates), any other lead needs a plain continuation byte. -/
def cont3ok (b b2 : Nat) : Bool :=
  if b = 0xE0 then decide (0xA0 ≤ b2 ∧ b2 ≤ 0xBF)
  else if b = 0xED then decide (0x80 ≤ b2 ∧ b2 ≤ 0x9F)
  else isCont b2

/-- Allowed second byte after a four-byte lead: lead 0xF0 needs
0x90–0xBF (no overlong forms), lead 0xF4 needs 0x80–0x8F (≤ U+10FFFF),
any other lead needs a plain continuation byte. -/
def cont4ok (b b2 : Nat) : Bool :=
  if b = 0xF0 then decide (0x90 ≤ b2 ∧ b2 ≤ 0xBF)
  else if b = 0xF4 then decide (0x80 ≤ b2 ∧ b2 ≤ 0x8F)
  else isCont b2

/-- `String::from_utf8_lossy`: decode UTF-8, replacing every invalid or
truncated sequence with U+FFFD instead of failing. -/
def utf8Lossy : List Nat → List Char
  | [] => []
  | b :: rest =>
    if b < 0x80 then Char.ofNat b :: utf8Lossy rest
    else if 0xC2 ≤ b ∧ b ≤ 0xDF then
      match rest with
      | [] => [replChar]
      | b2 :: rest2 =>
        if isCont b2 then
          Char.ofNat ((b - 0xC0) * 64 + (b2 - 0x80)) :: utf8Lossy rest2
        else replChar :: utf8Lossy (b2 :: rest2)
    else if 0xE0 ≤ b ∧ b ≤ 0xEF then
      match rest with
      | [] => [replChar]
      | b2 :: rest2 =>
        if cont3ok b b2 then
          match rest2 with
          | [] => [replChar]
          | b3 :: rest3 =>
            if isCont b3 then
              Char.ofNat ((b - 0xE0) * 4096 + (b2 - 0x80) * 64 + (b3 - 0x80))
                :: utf8Lossy rest3
            else replChar :: utf8Lossy (b3 :: rest3)
        else replChar :: utf8Lossy (b2 :: rest2)
    else if 0xF0 ≤ b ∧ b ≤ 0xF4 then
      match rest with
      | [] => [replChar]
      | b2 :: rest2 =>
        if cont4ok b b2 then
          match rest2 with
          | [] => [replChar]
          | b3 :: rest3 =>
            if isCont b3 then
              match rest3 with
              | [] => [replChar]
              | b4 :: rest4 =>
                if isCont b4 then
                  Char.ofNat ((b - 0xF0) * 262144 + (b2 - 0x80) * 4096
                      + (b3 - 0x80) * 64 + (b4 - 0x80))
                    :: utf8Lossy rest4
                else replChar :: utf8Lossy (b4 :: rest4)
            else replChar :: utf8Lossy (b3 :: rest3)
        else replChar :: utf8Lossy (b2 :: rest2)
    else replChar :: utf8Lossy rest

/-- The UTF-8 encoding of one Unicode scalar value. -/
def utf8EncodeChar (c : Char) : List Nat :=
  let n := c.toNat
  if n < 0x80 then [n]
  else if n < 0x800 then [0xC0 + n / 64, 0x80 + n % 64]
  else if n < 0x10000 then [0xE0 + n / 4096, 0x80 + n / 64 % 64, 0x80 + n % 64]
  else [0xF0 + n / 262144, 0x80 + n / 4096 % 64, 0x80 + n / 64 % 64, 0x80 + n % 64]

/-- `str::as_bytes`: the UTF-8 encoding of a string. -/
def utf8Encode : List Char → List Nat
  | [] => []
  | c :: rest => utf8EncodeChar c ++ utf8Encode rest

/-- `extract_token_claims_unverified` from `utils.rs`, over an external
deserializer `deser` standing for `serde_json::from_str::<T>`: isolate
the body segment with two `split_once('.')` calls, decode it as
URL-safe unpadded base64, decode the bytes lossily as UTF-8, and
deserialize. -/
def extract_token_claims_unverified {T : Type} (deser : List Char → Option T)
    (token : List Char) : Except ErrorResponse T :=
  let body := match splitOnce '.' token with
    | none => none
    | some (_metadata, rest) =>
      match splitOnce '.' rest with
      | none => none
      | some (body, _validation_str) => some body
  match body with
  | none => .error malformedTokenError
  | some body =>
    match b64UrlNoPadDecode body with
    | none => .error malformedTokenBodyError
    | some b64 =>
      match deser (utf8Lossy b64) with
      | none => .error malformedTokenClaimsError
      | some claims => .ok claims

/-- Full split at every occurrence of `sep` (always returns at least
one part). -/
def splitOnChar (sep : Char) : List Char → List (List Char)
  | [] => [[]]
  | c :: rest =>
    if c = sep then [] :: splitOnChar sep rest
    else
      match splitOnChar sep rest with
      | [] => [[c]]
      | p :: ps => (c :: p) :: ps

/-- One octet of a dotted-quad IPv4 literal: one to three digits, no
leading zero, value at most 255. -/
def parseOctet (s : List Char) : Option Nat :=
  if s ≠ [] ∧ s.all Char.isDigit ∧ s.length ≤ 3 ∧ (s.length = 1 ∨ s.head? ≠ some '0') then
    let v := s.foldl (fun acc c => acc * 10 + (c.toNat - 48)) 0
    if v ≤ 255 then some v else none
  else none

/-- Concrete instance of the external IP-literal parser
(`std::net::IpAddr::from_str`), covering its dotted-quad IPv4 half;
used to instantiate the resolver theorems on concrete inputs. -/
def parseIpv4 (s : String) : Option IpAddr :=
  match splitOnChar '.' s.toList with
  | [a, b, c, d] => do
    let a ← parseOctet a
    let b ← parseOctet b
    let c ← parseOctet c
    let d ← parseOctet d
    some (.v4 (((a * 256 + b) * 256 + c) * 256 + d))
  | _ => none

/-- A one-field claims shape used to instantiate the extractor
theorems on concrete inputs. -/
structure TestClaims where
  sub : List Char
deriving DecidableEq

/-- Concrete instance of the external serde serializer for
`TestClaims`: the JSON text of a one-field object (no escaping). -/
def serTestClaims (v : TestClaims) : List Char :=
  "\x7b\"sub\":\"".toList ++ v.sub ++ "\"\x7d".toList

/-- Concrete instance of the external serde deserializer for
`TestClaims`: accepts exactly the texts produced by `serTestClaims`. -/
def deserTestClaims (s : List Char) : Option TestClaims :=
  if s.take 8 = "\x7b\"sub\":\"".toList then
    match splitOnce '"' (s.drop 8) with
    | some (sub, tail) => if tail = ['\x7d'] then some ⟨sub⟩ else none
    | none => none
  else none

/-- The body-isolation step of `extract_token_claims_unverified`: two
`split_once('.')` calls, keeping what lies between the first and the
second dot. -/
def tokenBody (token : List Char) : Option (List Char) :=
  match splitOnce '.' token with
  | none => none
  | some (_metadata, rest) =>
    match splitOnce '.' rest with
    | none => none
    | some (body, _validation_str) => some body

/-- The middle segment of a token, described independently of
`splitOnce`: drop up to and including the first dot, then take up to
the next dot. -/
def segBetweenDots (t : List Char) : List Char :=
  ((t.dropWhile (fun c => c ≠ '.')).tail).takeWhile (fun c => c ≠ '.')

lemma check_trusted_proxy_ok_iff (proxies : List IpCidr) (ip : IpAddr) :
    check_trusted_proxy proxies ip = .ok () ↔ ∃ c ∈ proxies, c.contains ip = true := by
  induction proxies with
  | nil => simp [check_trusted_proxy]
  | cons c rest ih =>
    by_cases h : c.contains ip
    · simp [check_trusted_proxy, h]
    · simp only [check_trusted_proxy, if_neg h, ih, List.mem_cons]
      constructor
      · rintro ⟨d, hd, hdc⟩; exact ⟨d, Or.inr hd, hdc⟩
      · rintro ⟨d, hd | hd, hdc⟩
        · exact absurd (hd ▸ hdc) h
        · exact ⟨d, hd, hdc⟩

lemma check_trusted_proxy_error_of_untrusted (proxies : List IpCidr) (ip : IpAddr)
    (h : ∀ c ∈ proxies, c.contains ip = false) :
    check_trusted_proxy proxies ip = .error untrustedProxyError := by
  induction proxies with
  | nil => rfl
  | cons c rest ih =>
    have hc := h c (List.mem_cons_self c rest)
    simp only [check_trusted_proxy, hc, Bool.false_eq_true, if_false]
    exact ih fun d hd => h d (List.mem_cons_of_mem c hd)

lemma check_trusted_proxy_ok_of_trusted (proxies : List IpCidr) (ip : IpAddr)
    (h : ∃ c ∈ proxies, c.contains ip = true) :
    check_trusted_proxy proxies ip = .ok () :=
  (check_trusted_proxy_ok_iff proxies ip).mpr h

lemma div_eq_div_iff_mod_zero {m net a : Nat} (hm : 0 < m) (hnet : net % m = 0) :
    a / m = net / m ↔ net ≤ a ∧ a < net + m := by
  have hq : net / m * m = net := Nat.div_mul_cancel (Nat.dvd_of_mod_eq_zero hnet)
  constructor
  · intro h
    refine ⟨?_, ?_⟩
    · calc net = net / m * m := hq.symm
        _ = a / m * m := by rw [h]
        _ ≤ a := Nat.div_mul_le_self a m
    · have h1 : a < a / m * m + m := by
        have h2 := Nat.div_add_mod a m
        have h3 := Nat.mod_lt a hm
        have h4 : a / m * m = m * (a / m) := Nat.mul_comm _ _
        omega
      calc a < a / m * m + m := h1
        _ = net / m * m + m := by rw [h]
        _ = net + m := by rw [hq]
  · rintro ⟨h1, h2⟩
    obtain ⟨d, hd⟩ := Nat.exists_eq_add_of_le h1
    have e : a = d + m * (net / m) := by
      have h3 : net / m * m = m * (net / m) := Nat.mul_comm _ _
      omega
    rw [e, Nat.add_mul_div_left _ _ hm, Nat.div_eq_of_lt (by omega), Nat.zero_add]

/-- CIDR containment, characterized by the range's first and last
addresses: a well-formed range contains exactly the addresses of its
own family lying between `firstAddress` and `lastAddress`. -/
lemma IpCidr.contains_iff_range {c : IpCidr} {ip : IpAddr} (hc : c.WF) :
    c.contains ip = true ↔
      c.width = ip.width ∧ c.firstAddress ≤ ip.val ∧ ip.val ≤ c.lastAddress := by
  cases c with
  | v4 net len =>
    cases ip with
    | v4 a =>
      obtain ⟨hlen, hlt, hmod⟩ := hc
      simp only [IpCidr.width, IpCidr.net, IpCidr.len] at hlen hlt hmod
      simp only [IpCidr.contains, beq_iff_eq, IpCidr.width, IpAddr.width,
        IpCidr.firstAddress, IpCidr.lastAddress, IpCidr.net, IpCidr.len,
        IpAddr.val, true_and]
      have hm : 0 < 2 ^ (32 - len) := Nat.pos_pow_of_pos _ (by omega)
      rw [div_eq_div_iff_mod_zero hm hmod]
      omega
    | v6 a => simp [IpCidr.contains, IpCidr.width, IpAddr.width]
  | v6 net len =>
    cases ip with
    | v4 a => simp [IpCidr.contains, IpCidr.width, IpAddr.width]
    | v6 a =>
      obtain ⟨hlen, hlt, hmod⟩ := hc
      simp only [IpCidr.width, IpCidr.net, IpCidr.len] at hlen hlt hmod
      simp only [IpCidr.contains, beq_iff_eq, IpCidr.width, IpAddr.width,
        IpCidr.firstAddress, IpCidr.lastAddress, IpCidr.net, IpCidr.len,
        IpAddr.val, true_and]
      have hm : 0 < 2 ^ (128 - len) := Nat.pos_pow_of_pos _ (by omega)
      rw [div_eq_div_iff_mod_zero hm hmod]
      omega

/-- C1: when the transport peer IP is inside no trusted-proxy CIDR
range and the configured override header is present with a value that
parses as an IP, both resolvers reject with the `UntrustedProxy` error,
no matter how well-formed the header value is. -/
theorem untrusted_peer_header_override_rejected
    (cfg : Config) (parseIp : String → Option IpAddr) (req : Request)
    (peer value : String) (peer_ip header_ip : IpAddr) (name : String)
    (hpeer : req.peerAddr = some peer)
    (hparse : parseIp peer = some peer_ip)
    (huntrusted : ∀ c ∈ cfg.trustedProxies, c.contains peer_ip = false)
    (hname : cfg.peerIpHeaderName = some name)
    (hheader : req.headers name = some (some value))
    (hvalue : parseIp value = some header_ip) :
    real_ip_from_req cfg parseIp req = .error untrustedProxyError ∧
      real_ip_from_svc_req cfg parseIp req = .error untrustedProxyError := by
  have hpp : parse_peer_addr parseIp req.peerAddr = .ok peer_ip := by
    rw [hpeer]; simp only [parse_peer_addr, hparse]
  have hcust : ip_from_cust_header cfg parseIp req.headers = some header_ip := by
    simp only [ip_from_cust_header, hname, hheader, hvalue]
  have hchk := check_trusted_proxy_error_of_untrusted _ _ huntrusted
  constructor
  · simp only [real_ip_from_req, hpp, hcust, hchk]
  · simp only [real_ip_from_svc_req, hpp, hcust, hchk]

/-- Closed instance of C1: an untrusted peer `10.0.0.7` sending
`X-Real-IP: 1.2.3.4` is rejected with the `UntrustedProxy` error. -/
theorem untrusted_peer_header_override_rejected_witness :
    real_ip_from_req ⟨some "X-Real-IP", false, [IpCidr.v4 3232261120 24]⟩ parseIpv4
      ⟨some "10.0.0.7",
        fun n => if n = "X-Real-IP" then some (some "1.2.3.4") else none,
        none⟩ = .error untrustedProxyError ∧
    real_ip_from_svc_req ⟨some "X-Real-IP", false, [IpCidr.v4 3232261120 24]⟩ parseIpv4
      ⟨some "10.0.0.7",
        fun n => if n = "X-Real-IP" then some (some "1.2.3.4") else none,
        none⟩ = .error untrustedProxyError :=
  untrusted_peer_header_override_rejected _ parseIpv4 _ "10.0.0.7" "1.2.3.4"
    (IpAddr.v4 167772167) (IpAddr.v4 16909060) "X-Real-IP"
    rfl (by decide) (by decide) rfl (by decide) (by decide)

/-- C2: when the transport peer IP is inside a trusted-proxy CIDR range
and the configured override header is present with a value that parses
as an IP, both resolvers return exactly the header's IP, for every
proxy-mode setting and every forwarded-address value — the fallback
mechanism is never consulted and never combined with the header. -/
theorem trusted_peer_header_override_returns_header_ip
    (parseIp : String → Option IpAddr) (name peer value : String)
    (mode : Bool) (proxies : List IpCidr)
    (hdrs : String → Option (Option String)) (realip : Option String)
    (peer_ip header_ip : IpAddr)
    (hparse : parseIp peer = some peer_ip)
    (htrusted : ∃ c ∈ proxies, c.contains peer_ip = true)
    (hheader : hdrs name = some (some value))
    (hvalue : parseIp value = some header_ip) :
    real_ip_from_req ⟨some name, mode, proxies⟩ parseIp
        ⟨some peer, hdrs, realip⟩ = .ok header_ip ∧
      real_ip_from_svc_req ⟨some name, mode, proxies⟩ parseIp
        ⟨some peer, hdrs, realip⟩ = .ok header_ip := by
  have hpp : parse_peer_addr parseIp (some peer) = .ok peer_ip := by
    simp only [parse_peer_addr, hparse]
  have hcust : ip_from_cust_header ⟨some name, mode, proxies⟩ parseIp hdrs
      = some header_ip := by
    simp only [ip_from_cust_header, hheader, hvalue]
  have hchk := check_trusted_proxy_ok_of_trusted proxies peer_ip htrusted
  constructor
  · simp only [real_ip_from_req, hpp, hcust, hchk]
  · simp only [real_ip_from_svc_req, hpp, hcust, hchk]

/-- Closed instance of C2: a trusted peer `192.168.100.1` sending
`X-Real-IP: 1.2.3.4` resolves to `1.2.3.4`, with proxy mode enabled and
a different forwarded address present. -/
theorem trusted_peer_header_override_returns_header_ip_witness :
    real_ip_from_req ⟨some "X-Real-IP", true, [IpCidr.v4 3232261120 24]⟩ parseIpv4
      ⟨some "192.168.100.1",
        fun n => if n = "X-Real-IP" then some (some "1.2.3.4") else none,
        some "9.9.9.9"⟩ = .ok (IpAddr.v4 16909060) ∧
    real_ip_from_svc_req ⟨some "X-Real-IP", true, [IpCidr.v4 3232261120 24]⟩ parseIpv4
      ⟨some "192.168.100.1",
        fun n => if n = "X-Real-IP" then some (some "1.2.3.4") else none,
        some "9.9.9.9"⟩ = .ok (IpAddr.v4 16909060) :=
  trusted_peer_header_override_returns_header_ip parseIpv4 "X-Real-IP"
    "192.168.100.1" "1.2.3.4" true [IpCidr.v4 3232261120 24] _ (some "9.9.9.9")
    (IpAddr.v4 3232261121) (IpAddr.v4 16909060)
    (by decide) ⟨IpCidr.v4 3232261120 24, by decide, by decide⟩
    (by decide) (by decide)

/-- C3: with no firing header override (not configured, absent, or
unparsable value) and proxy mode disabled, both resolvers return the
transport peer IP unchanged for every trusted-proxy list; in particular
the request is never rejected. -/
theorem direct_peer_returned_when_no_override_and_no_proxy_mode
    (parseIp : String → Option IpAddr) (nameOpt : Option String)
    (proxies : List IpCidr) (hdrs : String → Option (Option String))
    (realip : Option String) (peer : String) (peer_ip : IpAddr)
    (hparse : parseIp peer = some peer_ip)
    (hnofire : nameOpt = none ∨
      ∃ n, nameOpt = some n ∧
        (hdrs n = none ∨ ∃ v, hdrs n = some (some v) ∧ parseIp v = none)) :
    real_ip_from_req ⟨nameOpt, false, proxies⟩ parseIp
        ⟨some peer, hdrs, realip⟩ = .ok peer_ip ∧
      real_ip_from_svc_req ⟨nameOpt, false, proxies⟩ parseIp
        ⟨some peer, hdrs, realip⟩ = .ok peer_ip := by
  have hpp : parse_peer_addr parseIp (some peer) = .ok peer_ip := by
    simp only [parse_peer_addr, hparse]
  have hcust : ip_from_cust_header ⟨nameOpt, false, proxies⟩ parseIp hdrs = none := by
    rcases hnofire with h | ⟨n, hn, h | ⟨v, hv, hpv⟩⟩
    · simp only [ip_from_cust_header, h]
    · simp only [ip_from_cust_header, hn, h]
    · simp only [ip_from_cust_header, hn, hv, hpv]
  constructor
  · simp only [real_ip_from_req, hpp, hcust, Bool.false_eq_true, if_false]
  · simp only [real_ip_from_svc_req, hpp, hcust, Bool.false_eq_true, if_false]

/-- Closed instance of C3: peer `203.0.113.9` with an absent configured
header, proxy mode off and a nonempty trust list not containing the
peer, resolves to the peer itself. -/
theorem direct_peer_returned_when_no_override_and_no_proxy_mode_witness :
    real_ip_from_req ⟨some "X-Real-IP", false, [IpCidr.v4 3232261120 24]⟩ parseIpv4
      ⟨some "203.0.113.9", fun _ => none, none⟩ = .ok (IpAddr.v4 3405803785) ∧
    real_ip_from_svc_req ⟨some "X-Real-IP", false, [IpCidr.v4 3232261120 24]⟩ parseIpv4
      ⟨some "203.0.113.9", fun _ => none, none⟩ = .ok (IpAddr.v4 3405803785) :=
  direct_peer_returned_when_no_override_and_no_proxy_mode parseIpv4
    (some "X-Real-IP") [IpCidr.v4 3232261120 24] (fun _ => none) none
    "203.0.113.9" (IpAddr.v4 3405803785) (by decide)
    (Or.inr ⟨"X-Real-IP", rfl, Or.inl rfl⟩)

/-- C4: for well-formed inputs, `check_trusted_proxy` succeeds exactly
when the IP lies, within its own address family, between the first and
the last address of at least one configured CIDR range; an address of a
different family never matches a range. -/
theorem check_trusted_proxy_iff_in_some_range
    (proxies : List IpCidr) (ip : IpAddr)
    (hwf : ∀ c ∈ proxies, c.WF) (_hip : ip.WF) :
    check_trusted_proxy proxies ip = .ok () ↔
      ∃ c ∈ proxies, c.width = ip.width ∧
        c.firstAddress ≤ ip.val ∧ ip.val ≤ c.lastAddress := by
  rw [check_trusted_proxy_ok_iff]
  constructor
  · rintro ⟨c, hc, hcont⟩
    exact ⟨c, hc, (IpCidr.contains_iff_range (hwf c hc)).mp hcont⟩
  · rintro ⟨c, hc, hrange⟩
    exact ⟨c, hc, (IpCidr.contains_iff_range (hwf c hc)).mpr hrange⟩

/-- Closed instance of C4: `192.168.100.1` lies in `192.168.100.0/24`,
so the trust check succeeds. -/
theorem check_trusted_proxy_iff_in_some_range_witness :
    check_trusted_proxy [IpCidr.v4 3232261120 24] (IpAddr.v4 3232261121) = .ok () :=
  (check_trusted_proxy_iff_in_some_range [IpCidr.v4 3232261120 24]
      (IpAddr.v4 3232261121) (by decide) (by decide)).mpr
    ⟨IpCidr.v4 3232261120 24, by decide, by decide, by decide, by decide⟩

/-- C6: in the proxy-fallback path (no header override fired, proxy
mode enabled, trusted peer), a forwarded-address string that does not
parse as an IP is rejected with the `MalformedPeerAddress` error. -/
theorem proxy_fallback_unparsable_forwarded_rejected
    (parseIp : String → Option IpAddr) (nameOpt : Option String)
    (proxies : List IpCidr) (hdrs : String → Option (Option String))
    (peer fwd : String) (peer_ip : IpAddr)
    (hparse : parseIp peer = some peer_ip)
    (hnofire : nameOpt = none ∨
      ∃ n, nameOpt = some n ∧
        (hdrs n = none ∨ ∃ v, hdrs n = some (some v) ∧ parseIp v = none))
    (htrusted : ∃ c ∈ proxies, c.contains peer_ip = true)
    (hfwd : parseIp fwd = none) :
    real_ip_from_req ⟨nameOpt, true, proxies⟩ parseIp
        ⟨some peer, hdrs, some fwd⟩ = .error malformedPeerAddressError ∧
      real_ip_from_svc_req ⟨nameOpt, true, proxies⟩ parseIp
        ⟨some peer, hdrs, some fwd⟩ = .error malformedPeerAddressError := by
  have hpp : parse_peer_addr parseIp (some peer) = .ok peer_ip := by
    simp only [parse_peer_addr, hparse]
  have hcust : ip_from_cust_header ⟨nameOpt, true, proxies⟩ parseIp hdrs = none := by
    rcases hnofire with h | ⟨n, hn, h | ⟨v, hv, hpv⟩⟩
    · simp only [ip_from_cust_header, h]
    · simp only [ip_from_cust_header, hn, h]
    · simp only [ip_from_cust_header, hn, hv, hpv]
  have hchk := check_trusted_proxy_ok_of_trusted proxies peer_ip htrusted
  have hfp : parse_peer_addr parseIp (some fwd) = .error malformedPeerAddressError := by
    simp only [parse_peer_addr, hfwd]
  constructor
  · simp only [real_ip_from_req, hpp, hcust, if_true, hchk, hfp]
  · simp only [real_ip_from_svc_req, hpp, hcust, if_true, hchk, hfp]

/-- Closed instance of C6: trusted peer `192.168.100.1`, no override
header, proxy mode on, forwarded value `not-an-ip` — rejected with the
`MalformedPeerAddress` error. -/
theorem proxy_fallback_unparsable_forwarded_rejected_witness :
    real_ip_from_req ⟨none, true, [IpCidr.v4 3232261120 24]⟩ parseIpv4
      ⟨some "192.168.100.1", fun _ => none, some "not-an-ip"⟩
      = .error malformedPeerAddressError ∧
    real_ip_from_svc_req ⟨none, true, [IpCidr.v4 3232261120 24]⟩ parseIpv4
      ⟨some "192.168.100.1", fun _ => none, some "not-an-ip"⟩
      = .error malformedPeerAddressError :=
  proxy_fallback_unparsable_forwarded_rejected parseIpv4 none
    [IpCidr.v4 3232261120 24] (fun _ => none) "192.168.100.1" "not-an-ip"
    (IpAddr.v4 3232261121) (by decide) (Or.inl rfl)
    ⟨IpCidr.v4 3232261120 24, by decide, by decide⟩ (by decide)

/-- C7: when the configured override header is absent or carries an
unparsable value, both resolvers behave exactly as if no header were
configured at all — the request falls through to the next resolution
strategy instead of being rejected. -/
theorem header_absent_or_unparsable_falls_through
    (cfg : Config) (parseIp : String → Option IpAddr) (req : Request)
    (n : String) (hname : cfg.peerIpHeaderName = some n)
    (hmiss : req.headers n = none ∨
      ∃ v, req.headers n = some (some v) ∧ parseIp v = none) :
    real_ip_from_req cfg parseIp req
        = real_ip_from_req ⟨none, cfg.proxyMode, cfg.trustedProxies⟩ parseIp req ∧
      real_ip_from_svc_req cfg parseIp req
        = real_ip_from_svc_req ⟨none, cfg.proxyMode, cfg.trustedProxies⟩ parseIp req := by
  have hcust : ip_from_cust_header cfg parseIp req.headers = none := by
    rcases hmiss with h | ⟨v, hv, hpv⟩
    · simp only [ip_from_cust_header, hname, h]
    · simp only [ip_from_cust_header, hname, hv, hpv]
  have hcust' : ip_from_cust_header ⟨none, cfg.proxyMode, cfg.trustedProxies⟩
      parseIp req.headers = none := rfl
  constructor
  · simp only [real_ip_from_req, hcust, hcust']
  · simp only [real_ip_from_svc_req, hcust, hcust']

/-- Closed instance of C7: a header value `garbage` that does not parse
leaves the resolution identical to one with no header configured. -/
theorem header_absent_or_unparsable_falls_through_witness :
    real_ip_from_req ⟨some "X-Real-IP", false, []⟩ parseIpv4
        ⟨some "203.0.113.9",
          fun n => if n = "X-Real-IP" then some (some "garbage") else none, none⟩
      = real_ip_from_req ⟨none, false, []⟩ parseIpv4
        ⟨some "203.0.113.9",
          fun n => if n = "X-Real-IP" then some (some "garbage") else none, none⟩ ∧
    real_ip_from_svc_req ⟨some "X-Real-IP", false, []⟩ parseIpv4
        ⟨some "203.0.113.9",
          fun n => if n = "X-Real-IP" then some (some "garbage") else none, none⟩
      = real_ip_from_svc_req ⟨none, false, []⟩ parseIpv4
        ⟨some "203.0.113.9",
          fun n => if n = "X-Real-IP" then some (some "garbage") else none, none⟩ :=
  header_absent_or_unparsable_falls_through ⟨some "X-Real-IP", false, []⟩ parseIpv4
    ⟨some "203.0.113.9",
      fun n => if n = "X-Real-IP" then some (some "garbage") else none, none⟩
    "X-Real-IP" rfl (Or.inr ⟨"garbage", by decide, by decide⟩)

lemma buildTrustedProxiesLoop_eq (parseCidr : List Char → Option IpCidr)
    (lines : List (List Char)) (acc : List IpCidr) :
    buildTrustedProxiesLoop parseCidr lines acc
      = acc ++ lines.filterMap
          (fun line => if rustTrim line = [] then none else parseCidr (rustTrim line)) := by
  induction lines generalizing acc with
  | nil => simp [buildTrustedProxiesLoop]
  | cons line rest ih =>
    by_cases h : rustTrim line = []
    · simp [buildTrustedProxiesLoop, h, ih]
    · cases hp : parseCidr (rustTrim line) with
      | none => simp [buildTrustedProxiesLoop, h, hp, ih]
      | some c => simp [buildTrustedProxiesLoop, h, hp, ih]

/-- C8: `build_trusted_proxies` returns exactly the ranges obtained by
parsing each trimmed non-blank line independently, in line order —
blank lines are skipped and unparsable lines are dropped without
aborting the rest of the list. -/
theorem build_trusted_proxies_parses_lines_independently
    (parseCidr : List Char → Option IpCidr) (raw : List Char) :
    build_trusted_proxies parseCidr raw
      = (rustLines raw).filterMap
          (fun line => if rustTrim line = [] then none else parseCidr (rustTrim line)) := by
  unfold build_trusted_proxies
  rw [buildTrustedProxiesLoop_eq]
  rfl

lemma splitOnce_eq_none_iff (sep : Char) : ∀ t : List Char, splitOnce sep t = none ↔ sep ∉ t
  | [] => by simp [splitOnce]
  | c :: rest => by
    by_cases h : c = sep
    · subst h; simp [splitOnce]
    · have ih := splitOnce_eq_none_iff sep rest
      simp only [splitOnce, if_neg h, List.mem_cons]
      cases hs : splitOnce sep rest with
      | none =>
        have hmem := ih.mp hs
        simp only [hs]
        constructor
        · rintro - (hc | hm)
          · exact h hc.symm
          · exact hmem hm
        · intro _; trivial
      | some p =>
        have hmem : sep ∈ rest := by
          by_contra hc
          rw [ih.mpr hc] at hs
          exact Option.noConfusion hs
        simp only [hs]
        constructor
        · intro he; exact Option.noConfusion he
        · intro hc; exact absurd (Or.inr hmem) hc

lemma splitOnce_append (sep : Char) (before after : List Char) (h : sep ∉ before) :
    splitOnce sep (before ++ sep :: after) = some (before, after) := by
  induction before with
  | nil => simp [splitOnce]
  | cons c before ih =>
    have hc : ¬ c = sep := by
      intro e; exact h (by rw [e]; exact List.mem_cons_self sep before)
    have h' : sep ∉ before := fun hm => h (List.mem_cons_of_mem c hm)
    simp [splitOnce, hc, ih h']

lemma splitOnce_some_decomp (sep : Char) :
    ∀ (t before after : List Char), splitOnce sep t = some (before, after) →
      t = before ++ sep :: after ∧ sep ∉ before
  | [], _, _ => by simp [splitOnce]
  | c :: rest, before, after => by
    by_cases h : c = sep
    · subst h
      simp only [splitOnce, if_pos rfl, Option.some.injEq, Prod.mk.injEq]
      rintro ⟨rfl, rfl⟩
      exact ⟨rfl, List.not_mem_nil _⟩
    · simp only [splitOnce, if_neg h]
      cases hs : splitOnce sep rest with
      | none => intro he; exact absurd he (by simp)
      | some p =>
        obtain ⟨b2, a2⟩ := p
        intro he
        have hdec := splitOnce_some_decomp sep rest b2 a2 hs
        simp only [Option.some.injEq, Prod.mk.injEq] at he
        obtain ⟨hb, ha⟩ := he
        subst hb; subst ha
        refine ⟨by rw [hdec.1]; rfl, ?_⟩
        intro hm
        rcases List.mem_cons.mp hm with hm | hm
        · exact h hm.symm
        · exact hdec.2 hm

lemma count_decomp (sep : Char) (before after : List Char) (h : sep ∉ before) :
    (before ++ sep :: after).count sep = after.count sep + 1 := by
  rw [List.count_append, List.count_cons_self, List.count_eq_zero.mpr h, Nat.zero_add]

lemma tokenBody_none_of_lt_two (t : List Char) (h : t.count '.' < 2) :
    tokenBody t = none := by
  cases hs : splitOnce '.' t with
  | none => simp only [tokenBody, hs]
  | some p =>
    obtain ⟨pre, rest⟩ := p
    obtain ⟨ht, hpre⟩ := splitOnce_some_decomp '.' t pre rest hs
    have hcount : t.count '.' = rest.count '.' + 1 := by
      rw [ht]; exact count_decomp '.' pre rest hpre
    have hzero : rest.count '.' = 0 := by omega
    have h2 : splitOnce '.' rest = none :=
      (splitOnce_eq_none_iff '.' rest).mpr (List.count_eq_zero.mp hzero)
    simp only [tokenBody, hs, h2]

lemma tokenBody_of_decomp (header body sig : List Char)
    (hh : '.' ∉ header) (hb : '.' ∉ body) :
    tokenBody (header ++ '.' :: (body ++ '.' :: sig)) = some body := by
  have h1 := splitOnce_append '.' header (body ++ '.' :: sig) hh
  have h2 := splitOnce_append '.' body sig hb
  simp only [tokenBody, h1, h2]

lemma exists_two_dot_decomp (t : List Char) (h : 2 ≤ t.count '.') :
    ∃ header body sig, t = header ++ '.' :: (body ++ '.' :: sig) ∧
      '.' ∉ header ∧ '.' ∉ body := by
  cases hs : splitOnce '.' t with
  | none =>
    exfalso
    have hmem := (splitOnce_eq_none_iff '.' t).mp hs
    have := List.count_eq_zero.mpr hmem
    omega
  | some p =>
    obtain ⟨pre, rest⟩ := p
    obtain ⟨ht, hpre⟩ := splitOnce_some_decomp '.' t pre rest hs
    have hcount : t.count '.' = rest.count '.' + 1 := by
      rw [ht]; exact count_decomp '.' pre rest hpre
    have hmem : '.' ∈ rest := List.count_pos_iff.mp (by omega)
    cases hs2 : splitOnce '.' rest with
    | none => exact absurd hmem ((splitOnce_eq_none_iff '.' rest).mp hs2)
    | some q =>
      obtain ⟨body, sig⟩ := q
      obtain ⟨hrest, hbody⟩ := splitOnce_some_decomp '.' rest body sig hs2
      exact ⟨pre, body, sig, by rw [ht, hrest], hpre, hbody⟩

lemma dropWhile_ne_dot_append (header rest : List Char) (hh : '.' ∉ header) :
    (header ++ '.' :: rest).dropWhile (fun c => c ≠ '.') = '.' :: rest := by
  induction header with
  | nil => rw [List.nil_append, List.dropWhile_cons, if_neg (by simp)]
  | cons c hd ih =>
    have hc : ¬ c = '.' := by
      intro e; exact hh (by rw [e]; exact List.mem_cons_self _ _)
    have h' : '.' ∉ hd := fun hm => hh (List.mem_cons_of_mem c hm)
    rw [List.cons_append, List.dropWhile_cons, if_pos (by simp [hc]), ih h']

lemma takeWhile_ne_dot_append (body sig : List Char) (hb : '.' ∉ body) :
    (body ++ '.' :: sig).takeWhile (fun c => c ≠ '.') = body := by
  induction body with
  | nil => rw [List.nil_append, List.takeWhile_cons, if_neg (by simp)]
  | cons c bd ih =>
    have hc : ¬ c = '.' := by
      intro e; exact hb (by rw [e]; exact List.mem_cons_self _ _)
    have h' : '.' ∉ bd := fun hm => hb (List.mem_cons_of_mem c hm)
    rw [List.cons_append, List.takeWhile_cons, if_pos (by simp [hc]), ih h']

lemma segBetweenDots_decomp (header body sig : List Char)
    (hh : '.' ∉ header) (hb : '.' ∉ body) :
    segBetweenDots (header ++ '.' :: (body ++ '.' :: sig)) = body := by
  unfold segBetweenDots
  rw [dropWhile_ne_dot_append header (body ++ '.' :: sig) hh, List.tail_cons,
    takeWhile_ne_dot_append body sig hb]

lemma extract_eq {T : Type} (deser : List Char → Option T) (token : List Char) :
    extract_token_claims_unverified deser token =
      match tokenBody token with
      | none => .error malformedTokenError
      | some body =>
        match b64UrlNoPadDecode body with
        | none => .error malformedTokenBodyError
        | some b64 =>
          match deser (utf8Lossy b64) with
          | none => .error malformedTokenClaimsError
          | some claims => .ok claims := rfl

/-- C5: `extract_token_claims_unverified` is total and fails in a typed
way: the `MalformedToken` error appears exactly for tokens with fewer
than two dots, the `MalformedTokenBody` error exactly when the middle
segment is not valid URL-safe unpadded base64, the
`MalformedTokenClaims` error exactly when the lossily UTF-8-decoded
bytes do not deserialize, and extraction succeeds otherwise. -/
theorem extract_token_error_taxonomy {T : Type} (deser : List Char → Option T)
    (token : List Char) :
    (extract_token_claims_unverified deser token = .error malformedTokenError ↔
      token.count '.' < 2) ∧
    (extract_token_claims_unverified deser token = .error malformedTokenBodyError ↔
      2 ≤ token.count '.' ∧ b64UrlNoPadDecode (segBetweenDots token) = none) ∧
    (extract_token_claims_unverified deser token = .error malformedTokenClaimsError ↔
      2 ≤ token.count '.' ∧ ∃ bytes, b64UrlNoPadDecode (segBetweenDots token) = some bytes ∧
        deser (utf8Lossy bytes) = none) ∧
    (∀ bytes claims, 2 ≤ token.count '.' →
      b64UrlNoPadDecode (segBetweenDots token) = some bytes →
      deser (utf8Lossy bytes) = some claims →
      extract_token_claims_unverified deser token = .ok claims) := by
  by_cases h2 : 2 ≤ token.count '.'
  · obtain ⟨header, body, sig, ht, hh, hb⟩ := exists_two_dot_decomp token h2
    subst ht
    have hbody := tokenBody_of_decomp header body sig hh hb
    have hseg := segBetweenDots_decomp header body sig hh hb
    cases hdec : b64UrlNoPadDecode body with
    | none =>
      simp only [extract_eq, hbody, hseg, hdec]
      refine ⟨⟨fun he => absurd (Except.error.inj he) (by decide), fun hc => absurd h2 (by omega)⟩,
        ⟨fun _ => ⟨h2, trivial⟩, fun _ => trivial⟩,
        ⟨fun he => absurd (Except.error.inj he) (by decide), ?_⟩, ?_⟩
      · rintro ⟨-, bytes, hbt, -⟩
        exact Option.noConfusion hbt
      · intro bytes claims _ hbt _
        exact Option.noConfusion hbt
    | some bytes =>
      cases hdes : deser (utf8Lossy bytes) with
      | none =>
        simp only [extract_eq, hbody, hseg, hdec, hdes]
        refine ⟨⟨fun he => absurd (Except.error.inj he) (by decide), fun hc => absurd h2 (by omega)⟩,
          ⟨fun he => absurd (Except.error.inj he) (by decide), ?_⟩,
          ⟨fun _ => ⟨h2, bytes, rfl, hdes⟩, fun _ => trivial⟩, ?_⟩
        · rintro ⟨-, hnone⟩
          exact Option.noConfusion hnone
        · intro bytes' claims _ hbt hdt
          obtain rfl := Option.some.inj hbt
          rw [hdes] at hdt
          exact Option.noConfusion hdt
      | some claims =>
        simp only [extract_eq, hbody, hseg, hdec, hdes]
        refine ⟨⟨fun he => Except.noConfusion he, fun hc => absurd h2 (by omega)⟩,
          ⟨fun he => Except.noConfusion he, ?_⟩,
          ⟨fun he => Except.noConfusion he, ?_⟩, ?_⟩
        · rintro ⟨-, hnone⟩
          exact Option.noConfusion hnone
        · rintro ⟨-, bytes', hbt, hdt⟩
          obtain rfl := Option.some.inj hbt
          rw [hdes] at hdt
          exact Option.noConfusion hdt
        · intro bytes' claims' _ hbt hdt
          obtain rfl := Option.some.inj hbt
          rw [hdes] at hdt
          obtain rfl := Option.some.inj hdt
          rfl
  · have hnone := tokenBody_none_of_lt_two token (by omega)
    simp only [extract_eq, hnone]
    refine ⟨⟨fun _ => by omega, fun _ => trivial⟩,
      ⟨fun he => absurd (Except.error.inj he) (by decide), ?_⟩,
      ⟨fun he => absurd (Except.error.inj he) (by decide), ?_⟩, ?_⟩
    · rintro ⟨hc, -⟩
      exact absurd hc h2
    · rintro ⟨hc, -⟩
      exact absurd hc h2
    · intro bytes claims hc _ _
      exact absurd hc h2

/-- Closed instance of C5: a token with no dot fails with the
`MalformedToken` error. -/
theorem extract_token_error_taxonomy_witness :
    extract_token_claims_unverified deserTestClaims "nodots".toList
      = .error malformedTokenError :=
  (extract_token_error_taxonomy deserTestClaims "nodots".toList).1.mpr (by decide)

/-- C10: the outcome of `extract_token_claims_unverified` depends only
on the middle (body) segment — two tokens with at least two dots each
and identical middle segments extract identically, so the header and
signature segments are never inspected. -/
theorem extract_depends_only_on_body_segment {T : Type}
    (deser : List Char → Option T) (t1 t2 : List Char)
    (hc1 : 2 ≤ t1.count '.') (hc2 : 2 ≤ t2.count '.')
    (hseg : segBetweenDots t1 = segBetweenDots t2) :
    extract_token_claims_unverified deser t1
      = extract_token_claims_unverified deser t2 := by
  obtain ⟨hd1, bd1, sg1, ht1, hh1, hb1⟩ := exists_two_dot_decomp t1 hc1
  obtain ⟨hd2, bd2, sg2, ht2, hh2, hb2⟩ := exists_two_dot_decomp t2 hc2
  subst ht1; subst ht2
  have e1 := segBetweenDots_decomp hd1 bd1 sg1 hh1 hb1
  have e2 := segBetweenDots_decomp hd2 bd2 sg2 hh2 hb2
  have hbd : bd1 = bd2 := by rw [← e1, ← e2, hseg]
  subst hbd
  rw [extract_eq, extract_eq, tokenBody_of_decomp hd1 bd1 sg1 hh1 hb1,
    tokenBody_of_decomp hd2 bd1 sg2 hh2 hb2]

/-- Closed instance of C10: two tokens sharing the body segment but
with different headers and signatures extract identically. -/
theorem extract_depends_only_on_body_segment_witness :
    extract_token_claims_unverified deserTestClaims "x.eyJzdWIiOiJhYmMifQ.y".toList
      = extract_token_claims_unverified deserTestClaims
          "zz.eyJzdWIiOiJhYmMifQ.not.a.signature".toList :=
  extract_depends_only_on_body_segment deserTestClaims _ _
    (by decide) (by decide) (by decide)

lemma b64Val_b64Char : ∀ n, n < 64 → b64Val (b64Char n) = some n := by decide

lemma b64Char_ne_dot (n : Nat) : b64Char n ≠ '.' := by
  by_cases h : n < 64
  · exact (by decide : ∀ m, m < 64 → b64Char m ≠ '.') n h
  · unfold b64Char
    rw [if_neg (by omega), if_neg (by omega), if_neg (by omega), if_neg (by omega)]
    decide

lemma mem_b64Encode : ∀ (bytes : List Nat) {c : Char},
    c ∈ b64UrlNoPadEncode bytes → ∃ n, c = b64Char n
  | [], _, h => absurd h (List.not_mem_nil _)
  | [a], c, h => by
    simp only [b64UrlNoPadEncode] at h
    rcases List.mem_cons.mp h with rfl | h
    · exact ⟨a / 4, rfl⟩
    rcases List.mem_cons.mp h with rfl | h
    · exact ⟨a % 4 * 16, rfl⟩
    · exact absurd h (List.not_mem_nil _)
  | [a, b], c, h => by
    simp only [b64UrlNoPadEncode] at h
    rcases List.mem_cons.mp h with rfl | h
    · exact ⟨a / 4, rfl⟩
    rcases List.mem_cons.mp h with rfl | h
    · exact ⟨a % 4 * 16 + b / 16, rfl⟩
    rcases List.mem_cons.mp h with rfl | h
    · exact ⟨b % 16 * 4, rfl⟩
    · exact absurd h (List.not_mem_nil _)
  | a :: b :: d :: rest, c, h => by
    simp only [b64UrlNoPadEncode] at h
    rcases List.mem_cons.mp h with rfl | h
    · exact ⟨a / 4, rfl⟩
    rcases List.mem_cons.mp h with rfl | h
    · exact ⟨a % 4 * 16 + b / 16, rfl⟩
    rcases List.mem_cons.mp h with rfl | h
    · exact ⟨b % 16 * 4 + d / 64, rfl⟩
    rcases List.mem_cons.mp h with rfl | h
    · exact ⟨d % 64, rfl⟩
    · exact mem_b64Encode rest h

lemma dot_not_mem_b64Encode (bytes : List Nat) : '.' ∉ b64UrlNoPadEncode bytes := by
  intro h
  obtain ⟨n, hn⟩ := mem_b64Encode bytes h
  exact b64Char_ne_dot n hn.symm

lemma b64_roundtrip : ∀ bytes : List Nat, (∀ b ∈ bytes, b < 256) →
    b64UrlNoPadDecode (b64UrlNoPadEncode bytes) = some bytes
  | [], _ => rfl
  | [a], h => by
    have ha : a < 256 := h a (List.mem_cons_self _ _)
    simp only [b64UrlNoPadEncode, b64UrlNoPadDecode,
      b64Val_b64Char (a / 4) (by omega), b64Val_b64Char (a % 4 * 16) (by omega),
      Option.bind_eq_bind, Option.some_bind]
    rw [if_pos (by omega)]
    have e : a / 4 * 4 + a % 4 * 16 / 16 = a := by omega
    rw [e]
  | [a, b], h => by
    have ha : a < 256 := h a (List.mem_cons_self _ _)
    have hb : b < 256 := h b (List.mem_cons_of_mem a (List.mem_cons_self _ _))
    simp only [b64UrlNoPadEncode, b64UrlNoPadDecode,
      b64Val_b64Char (a / 4) (by omega), b64Val_b64Char (a % 4 * 16 + b / 16) (by omega),
      b64Val_b64Char (b % 16 * 4) (by omega), Option.bind_eq_bind, Option.some_bind]
    rw [if_pos (by omega)]
    have e1 : a / 4 * 4 + (a % 4 * 16 + b / 16) / 16 = a := by omega
    have e2 : (a % 4 * 16 + b / 16) % 16 * 16 + b % 16 * 4 / 4 = b := by omega
    rw [e1, e2]
  | a :: b :: d :: rest, h => by
    have ha : a < 256 := h a (List.mem_cons_self _ _)
    have hb : b < 256 := h b (List.mem_cons_of_mem a (List.mem_cons_self _ _))
    have hd : d < 256 :=
      h d (List.mem_cons_of_mem a (List.mem_cons_of_mem b (List.mem_cons_self _ _)))
    have h' : ∀ x ∈ rest, x < 256 := fun x hx =>
      h x (List.mem_cons_of_mem a (List.mem_cons_of_mem b (List.mem_cons_of_mem d hx)))
    have ih := b64_roundtrip rest h'
    simp only [b64UrlNoPadEncode, b64UrlNoPadDecode,
      b64Val_b64Char (a / 4) (by omega), b64Val_b64Char (a % 4 * 16 + b / 16) (by omega),
      b64Val_b64Char (b % 16 * 4 + d / 64) (by omega), b64Val_b64Char (d % 64) (by omega),
      Option.bind_eq_bind, Option.some_bind, ih]
    have e1 : a / 4 * 4 + (a % 4 * 16 + b / 16) / 16 = a := by omega
    have e2 : (a % 4 * 16 + b / 16) % 16 * 16 + (b % 16 * 4 + d / 64) / 4 = b := by omega
    have e3 : (b % 16 * 4 + d / 64) % 4 * 64 + d % 64 = d := by omega
    rw [e1, e2, e3]

lemma utf8Lossy_cons1 (b : Nat) (rest : List Nat) (h : b < 0x80) :
    utf8Lossy (b :: rest) = Char.ofNat b :: utf8Lossy rest := by
  conv_lhs => unfold utf8Lossy
  rw [if_pos h]

lemma utf8Lossy_cons2 (b b2 : Nat) (rest : List Nat)
    (h1 : 0xC2 ≤ b) (h2 : b ≤ 0xDF) (h3 : isCont b2 = true) :
    utf8Lossy (b :: b2 :: rest)
      = Char.ofNat ((b - 0xC0) * 64 + (b2 - 0x80)) :: utf8Lossy rest := by
  conv_lhs => unfold utf8Lossy
  rw [if_neg (by omega), if_pos ⟨h1, h2⟩]
  dsimp only
  rw [if_pos h3]

lemma utf8Lossy_cons3 (b b2 b3 : Nat) (rest : List Nat)
    (h1 : 0xE0 ≤ b) (h2 : b ≤ 0xEF) (h3 : cont3ok b b2 = true) (h4 : isCont b3 = true) :
    utf8Lossy (b :: b2 :: b3 :: rest)
      = Char.ofNat ((b - 0xE0) * 4096 + (b2 - 0x80) * 64 + (b3 - 0x80))
          :: utf8Lossy rest := by
  conv_lhs => unfold utf8Lossy
  rw [if_neg (by omega), if_neg (by omega), if_pos ⟨h1, h2⟩]
  dsimp only
  rw [if_pos h3, if_pos h4]

lemma utf8Lossy_cons4 (b b2 b3 b4 : Nat) (rest : List Nat)
    (h1 : 0xF0 ≤ b) (h2 : b ≤ 0xF4) (h3 : cont4ok b b2 = true)
    (h4 : isCont b3 = true) (h5 : isCont b4 = true) :
    utf8Lossy (b :: b2 :: b3 :: b4 :: rest)
      = Char.ofNat ((b - 0xF0) * 262144 + (b2 - 0x80) * 4096
          + (b3 - 0x80) * 64 + (b4 - 0x80)) :: utf8Lossy rest := by
  conv_lhs => unfold utf8Lossy
  rw [if_neg (by omega), if_neg (by omega), if_neg (by omega), if_pos ⟨h1, h2⟩]
  dsimp only
  rw [if_pos h3, if_pos h4, if_pos h5]

lemma utf8Lossy_encodeChar (c : Char) (rest : List Nat) :
    utf8Lossy (utf8EncodeChar c ++ rest) = c :: utf8Lossy rest := by
  have hv : c.toNat < 0xD800 ∨ 0xE000 ≤ c.toNat ∧ c.toNat < 0x110000 := c.valid
  have hofn : Char.ofNat c.toNat = c := Char.ofNat_toNat c
  set n := c.toNat with hn
  by_cases h1 : n < 0x80
  · have he : utf8EncodeChar c = [n] := by
      simp only [utf8EncodeChar, ← hn]
      rw [if_pos h1]
    rw [he, List.singleton_append, utf8Lossy_cons1 n rest h1, hn, hofn]
  · by_cases h2 : n < 0x800
    · have he : utf8EncodeChar c = [0xC0 + n / 64, 0x80 + n % 64] := by
        simp only [utf8EncodeChar, ← hn]
        rw [if_neg h1, if_pos h2]
      rw [he]
      simp only [List.cons_append, List.nil_append]
      rw [utf8Lossy_cons2 _ _ _ (by omega) (by omega)
        (by simp only [isCont, decide_eq_true_eq]; omega)]
      have harg : (0xC0 + n / 64 - 0xC0) * 64 + (0x80 + n % 64 - 0x80) = n := by omega
      rw [harg, hn, hofn]
    · by_cases h3 : n < 0x10000
      · have he : utf8EncodeChar c
            = [0xE0 + n / 4096, 0x80 + n / 64 % 64, 0x80 + n % 64] := by
          simp only [utf8EncodeChar, ← hn]
          rw [if_neg h1, if_neg h2, if_pos h3]
        have hc3 : cont3ok (0xE0 + n / 4096) (0x80 + n / 64 % 64) = true := by
          simp only [cont3ok, isCont]
          by_cases hA : n < 0x1000
          · rw [if_pos (by omega)]
            simp only [decide_eq_true_eq]
            omega
          · by_cases hB : 0xD000 ≤ n ∧ n < 0xE000
            · rw [if_neg (by omega), if_pos (by omega)]
              simp only [decide_eq_true_eq]
              rcases hv with h | h
              · omega
              · omega
            · rw [if_neg (by omega), if_neg (by omega)]
              simp only [decide_eq_true_eq]
              omega
        rw [he]
        simp only [List.cons_append, List.nil_append]
        rw [utf8Lossy_cons3 _ _ _ _ (by omega) (by omega) hc3
          (by simp only [isCont, decide_eq_true_eq]; omega)]
        have harg : (0xE0 + n / 4096 - 0xE0) * 4096 + (0x80 + n / 64 % 64 - 0x80) * 64
            + (0x80 + n % 64 - 0x80) = n := by omega
        rw [harg, hn, hofn]
      · have h4 : n < 0x110000 := by
          rcases hv with h | h
          · omega
          · exact h.2
        have he : utf8EncodeChar c
            = [0xF0 + n / 262144, 0x80 + n / 4096 % 64, 0x80 + n / 64 % 64,
                0x80 + n % 64] := by
          simp only [utf8EncodeChar, ← hn]
          rw [if_neg h1, if_neg h2, if_neg h3]
        have hc4 : cont4ok (0xF0 + n / 262144) (0x80 + n / 4096 % 64) = true := by
          simp only [cont4ok, isCont]
          by_cases hA : n < 0x40000
          · rw [if_pos (by omega)]
            simp only [decide_eq_true_eq]
            omega
          · by_cases hB : 0x100000 ≤ n
            · rw [if_neg (by omega), if_pos (by omega)]
              simp only [decide_eq_true_eq]
              omega
            · rw [if_neg (by omega), if_neg (by omega)]
              simp only [decide_eq_true_eq]
              omega
        rw [he]
        simp only [List.cons_append, List.nil_append]
        rw [utf8Lossy_cons4 _ _ _ _ _ (by omega) (by omega) hc4
          (by simp only [isCont, decide_eq_true_eq]; omega)
          (by simp only [isCont, decide_eq_true_eq]; omega)]
        have harg : (0xF0 + n / 262144 - 0xF0) * 262144
            + (0x80 + n / 4096 % 64 - 0x80) * 4096
            + (0x80 + n / 64 % 64 - 0x80) * 64 + (0x80 + n % 64 - 0x80) = n := by omega
        rw [harg, hn, hofn]

lemma utf8_roundtrip : ∀ s : List Char, utf8Lossy (utf8Encode s) = s
  | [] => rfl
  | c :: rest => by
    simp only [utf8Encode]
    rw [utf8Lossy_encodeChar c (utf8Encode rest), utf8_roundtrip rest]

lemma utf8EncodeChar_lt_256 (c : Char) : ∀ b ∈ utf8EncodeChar c, b < 256 := by
  have hv : c.toNat < 0xD800 ∨ 0xE000 ≤ c.toNat ∧ c.toNat < 0x110000 := c.valid
  have hval : c.toNat < 0x110000 := by
    rcases hv with h | h
    · omega
    · exact h.2
  intro b hb
  simp only [utf8EncodeChar] at hb
  split_ifs at hb with h1 h2 h3
  · simp only [List.mem_cons, List.not_mem_nil, or_false] at hb
    omega
  · simp only [List.mem_cons, List.not_mem_nil, or_false] at hb
    rcases hb with rfl | rfl <;> omega
  · simp only [List.mem_cons, List.not_mem_nil, or_false] at hb
    rcases hb with rfl | rfl | rfl <;> omega
  · simp only [List.mem_cons, List.not_mem_nil, or_false] at hb
    rcases hb with rfl | rfl | rfl | rfl <;> omega

lemma utf8Encode_lt_256 : ∀ s : List Char, ∀ b ∈ utf8Encode s, b < 256
  | [] => by intro b hb; exact absurd hb (List.not_mem_nil _)
  | c :: rest => by
    intro b hb
    simp only [utf8Encode] at hb
    rcases List.mem_append.mp hb with h | h
    · exact utf8EncodeChar_lt_256 c b h
    · exact utf8Encode_lt_256 rest b h

/-- C9: serializing a claims value, base64url-encoding its UTF-8 bytes
without padding, and placing the result as the middle segment of a
dot-delimited token (any dotless header, any signature) makes
`extract_token_claims_unverified` return exactly the original value. -/
theorem extract_token_roundtrip {T : Type} (ser : T → List Char)
    (deser : List Char → Option T) (v : T) (header sig : List Char)
    (hh : '.' ∉ header) (hd : deser (ser v) = some v) :
    extract_token_claims_unverified deser
        (header ++ '.' :: (b64UrlNoPadEncode (utf8Encode (ser v)) ++ '.' :: sig))
      = .ok v := by
  have hb := dot_not_mem_b64Encode (utf8Encode (ser v))
  have hbody := tokenBody_of_decomp header _ sig hh hb
  have hdec := b64_roundtrip (utf8Encode (ser v)) (utf8Encode_lt_256 (ser v))
  simp only [extract_eq, hbody, hdec, utf8_roundtrip, hd]

/-- Closed instance of C9: the token `x.eyJzdWIiOiJhYmMifQ.y` (body
decodes to the JSON text of a claims object with `sub = "abc"`) yields
exactly that claims value. -/
theorem extract_token_roundtrip_witness :
    extract_token_claims_unverified deserTestClaims "x.eyJzdWIiOiJhYmMifQ.y".toList
      = .ok ⟨"abc".toList⟩ := by
  have h := extract_token_roundtrip serTestClaims deserTestClaims ⟨"abc".toList⟩
    "x".toList "y".toList (by decide) (by decide)
  have e : "x".toList
        ++ '.' :: (b64UrlNoPadEncode (utf8Encode (serTestClaims ⟨"abc".toList⟩))
          ++ '.' :: "y".toList)
      = "x.eyJzdWIiOiJhYmMifQ.y".toList := by decide
  rw [← e]
  exact h

end Rauthy
